import Mathlib

/-!
Shallow embedding of the SSTable engine of the `genesis` key-value store
(`store/sstable.go`), together with proofs about its build path
(`writeEntriesToSST`, `InitSSTableOnDisk`, `InitTableFiles`), its read path
(`SSTable.Get` and its scan loop), its sparse-index binary search
(`getCandidateByteOffsetIndex`), and its bloom filter.

Go strings are byte strings compared bytewise, so keys and values are
modelled as `List Nat` of byte values; `uint32` arithmetic is `Nat`
arithmetic taken `% 4294967296` where the code can overflow.  File contents
are byte lists; reading from a file at an offset is `List.drop`/`List.take`.
The record codec (`record.go`) and the bloom filter (`bloom.go`) are not
part of the repository snapshot under verification's source tree, so they
are modelled from the specification, as marked on each such definition.
-/

set_option maxRecDepth 1000000

namespace Genesis

/-- Byte strings: a Go `string` is an immutable byte sequence. -/
abbrev Str := List Nat

/-- Bytewise three-way comparison of Go strings: `strings.Compare` / `<` / `>`
on `string` compare byte by byte, a strict prefix being smaller. -/
def strCmp : Str → Str → Ordering
  | [], [] => .eq
  | [], _ :: _ => .lt
  | _ :: _, [] => .gt
  | a :: as, b :: bs =>
      if a < b then .lt else if b < a then .gt else strCmp as bs

/-- Record header (`Header`): checksum, tombstone, timestamp, key size,
value size, all fixed width.  Modelled from the spec: `record.go` is not in
the source tree; §3 gives the fields and §6 the layout. -/
structure Header where
  checksum : Nat
  tombstone : Nat
  timestamp : Nat
  keySize : Nat
  valueSize : Nat
deriving DecidableEq, Repr

/-- The fixed encoded header size (`headerSize` in the Go code): 17 bytes. -/
def headerSize : Nat := 17

/-- A key/value record.  `recordSize` is the stored derived total size field
(`RecordSize uint32`).  Modelled from the spec: `record.go` is not in the
source tree; §3 defines
`record_size = header_size + key_size + value_size`. -/
structure Record where
  header : Header
  key : Str
  value : Str
  recordSize : Nat
deriving DecidableEq, Repr

/-- Little-endian encoding of a `uint32` value as four bytes. -/
def u32le (n : Nat) : List Nat :=
  [n % 256, n / 256 % 256, n / 65536 % 256, n / 16777216 % 256]

/-- Encoded header bytes, little-endian fixed-width fields in order
checksum, tombstone, timestamp, keySize, valueSize.  Modelled from the
spec (§4.1, §6): `record.go` is not in the source tree. -/
def encodeHeader (h : Header) : List Nat :=
  u32le h.checksum ++ [h.tombstone % 256] ++ u32le h.timestamp ++
    u32le h.keySize ++ u32le h.valueSize

/-- `Record.EncodeKV`: header bytes then raw key bytes then raw value
bytes.  Modelled from the spec (§4.1, §6): `record.go` is not in the
source tree. -/
def encodeRecord (r : Record) : List Nat :=
  encodeHeader r.header ++ r.key ++ r.value

/-- Concatenated encoding of a record batch, as `writeEntriesToSST`
accumulates it into its buffer before writing the data file. -/
def encodeAll : List Record → List Nat
  | [] => []
  | r :: rest => encodeRecord r ++ encodeAll rest

/-- Decode a little-endian `uint32` from four bytes of `b` starting at
index `i` (missing bytes read as 0, matching a zero-filled Go buffer). -/
def dec32 (b : List Nat) (i : Nat) : Nat :=
  b.getD i 0 + 256 * b.getD (i + 1) 0 + 65536 * b.getD (i + 2) 0 +
    16777216 * b.getD (i + 3) 0

/-- `Header.DecodeHeader`: read the five fixed-width little-endian fields
from a 17-byte buffer.  Modelled from the spec (§4.1, §6): `record.go` is
not in the source tree. -/
def DecodeHeader (b : List Nat) : Header :=
  ⟨dec32 b 0, b.getD 4 0, dec32 b 5, dec32 b 9, dec32 b 13⟩

/-- `Record.DecodeKV`: the inverse of `EncodeKV` — 17 header bytes, then
exactly `keySize` key bytes and `valueSize` value bytes.  Modelled from the
spec (§4.1, §6): `record.go` is not in the source tree. -/
def DecodeKV (b : List Nat) : Record :=
  let h := DecodeHeader b
  ⟨h, (b.drop 17).take h.keySize, (b.drop (17 + h.keySize)).take h.valueSize,
    (headerSize + h.keySize + h.valueSize) % 4294967296⟩

/-- A record whose stored sizes match its actual key/value bytes, whose
bytes are bytes, and whose lengths fit in `uint32` — what the codec
produces for real data (spec §3 invariants). -/
def WFRecord (r : Record) : Prop :=
  r.header.keySize = r.key.length ∧ r.header.valueSize = r.value.length ∧
  r.key.length < 4294967296 ∧ r.value.length < 4294967296 ∧
  (∀ b ∈ r.key, b < 256) ∧ (∀ b ∈ r.value, b < 256) ∧
  r.recordSize = (headerSize + r.key.length + r.value.length) % 4294967296

instance (r : Record) : Decidable (WFRecord r) := by
  unfold WFRecord; infer_instance

/-- Bloom filter state: bit array, its size, and the number of hash
functions.  Modelled from the spec (§4.2): `bloom.go` is not in the source
tree. -/
structure BloomFilter where
  bitSet : List Bool
  bitSetSize : Nat
  numHashFuncs : Nat
deriving DecidableEq, Repr

/-- First base hash over the key bytes (a simple 32-bit multiplicative
hash).  Modelled from the spec: the concrete hash functions of `bloom.go`
are unspecified; any fixed deterministic family realises §4.2. -/
def bloomH1 (k : Str) : Nat :=
  k.foldl (fun a b => (a * 31 + b) % 4294967296) 17

/-- Second base hash over the key bytes.  Modelled from the spec, as
`bloomH1`. -/
def bloomH2 (k : Str) : Nat :=
  k.foldl (fun a b => (a * 131 + b) % 4294967296) 5381

/-- The `k` bit positions probed for a key: double hashing
`(h1 + i*h2) mod bitSetSize` for `i < numHashFuncs`.  Modelled from the
spec (§4.2): "`Add(key)` sets bits at positions from k independent hash
functions". -/
def bloomPositions (bf : BloomFilter) (key : Str) : List Nat :=
  (List.range bf.numHashFuncs).map
    (fun i => (bloomH1 key + i * bloomH2 key) % bf.bitSetSize)

/-- `BloomFilter.InitBloomFilterAttrs`: size the bit array from the
expected element count and fix the hash count.  Modelled from the spec
(§4.2): a ~1% false-positive target gives ≈10 bits per element and 7 hash
functions. -/
def InitBloomFilterAttrs (n : Nat) : BloomFilter :=
  ⟨List.replicate (10 * n) false, 10 * n, 7⟩

/-- `BloomFilter.Add`: set the bit at each probed position.  Modelled from
the spec (§4.2). -/
def bloomAdd (bf : BloomFilter) (key : Str) : BloomFilter :=
  { bf with
    bitSet := (bloomPositions bf key).foldl (fun bs p => bs.set p true) bf.bitSet }

/-- `BloomFilter.MightContain`: true only if all probed positions are set.
Modelled from the spec (§4.2). -/
def MightContain (bf : BloomFilter) (key : Str) : Bool :=
  (bloomPositions bf key).all (fun p => bf.bitSet.getD p false)

/-- `populateBloomFilter`: add every key of the batch to the filter (the
persisting of the bit array to the bloom file is not modelled). -/
def populateBloomFilter (entries : List Record) (bf : BloomFilter) : BloomFilter :=
  entries.foldl (fun b r => bloomAdd b r.key) bf

/-- `sparseIndex`: key size, key, and byte offset into the data file. -/
structure SparseIndexEntry where
  keySize : Nat
  key : Str
  byteOffset : Nat
deriving DecidableEq, Repr

/-- Zero record, used as the (never semantically reached) default for list
accesses the Go code performs by direct indexing. -/
def defRec : Record := ⟨⟨0, 0, 0, 0, 0⟩, [], [], 0⟩

/-- Zero sparse-index entry, the analogous default for sparse-key
accesses. -/
def defEntry : SparseIndexEntry := ⟨0, [], 0⟩

/-- `SparseIndexSampleSize`: every 1000th key goes into the sparse index. -/
def SparseIndexSampleSize : Nat := 1000

/-- The sparse-index construction loop of `writeEntriesToSST`: at batch
index `i` (starting from `i0`) an entry is emitted when
`i % SparseIndexSampleSize == 0`, carrying the running byte-offset counter,
which is a `uint32` and therefore accumulates `% 2^32`. -/
def sparseAux : List Record → Nat → Nat → List SparseIndexEntry
  | [], _, _ => []
  | r :: rest, i, off =>
      (if i % SparseIndexSampleSize = 0 then [⟨r.header.keySize, r.key, off⟩] else [])
        ++ sparseAux rest (i + 1) ((off + r.recordSize) % 4294967296)

/-- The in-memory state of an `SSTable` relevant to `Get`: min/max keys,
sparse index, bloom filter, the bytes of the data file, and the total size
counter.  The table id and the raw OS file handles are not modelled. -/
structure SSTable where
  minKey : Str
  maxKey : Str
  sparseKeys : List SparseIndexEntry
  bloomFilter : BloomFilter
  data : List Nat
  sizeInBytes : Nat
deriving DecidableEq, Repr

/-- A freshly allocated table before `writeEntriesToSST` runs. -/
def emptyTable : SSTable :=
  ⟨[], [], [], ⟨[], 0, 0⟩, [], 0⟩

/-- Mathematical (unwrapped) sum of the stored `RecordSize` fields of a
batch, used to state properties of the byte-offset counter. -/
def sumRS : List Record → Nat
  | [] => 0
  | r :: rest => r.recordSize + sumRS rest

/-- `writeEntriesToSST`: set `minKey`/`maxKey` from the first/last record,
accumulate `sizeInBytes` (a `uint32`), build the sparse index (appending to
the table's existing slice) and the encoded data blob, then initialise and
populate the bloom filter.  The Go code indexes `(*sortedEntries)[0]` and
panics on an empty batch; the `headD`/`getLastD` defaults below are only
reached in that out-of-contract case. -/
def writeEntriesToSST (entries : List Record) (t : SSTable) : SSTable :=
  { t with
    minKey := (entries.headD defRec).key
    maxKey := (entries.getLastD defRec).key
    sizeInBytes := entries.foldl (fun s r => (s + r.recordSize) % 4294967296) t.sizeInBytes
    sparseKeys := t.sparseKeys ++ sparseAux entries 0 0
    data := encodeAll entries
    bloomFilter := populateBloomFilter entries (InitBloomFilterAttrs entries.length) }

/-- Success/failure of each file-system operation `InitTableFiles`
performs, injected as an oracle so the failure paths can be stated. -/
structure IOOracle where
  mkdirOk : Bool
  dataOk : Bool
  indexOk : Bool
  bloomOk : Bool
deriving DecidableEq, Repr

/-- The three companion files of a table. -/
inductive FileId
  | data
  | index
  | bloom
deriving DecidableEq, Repr

/-- Errors returned by `InitTableFiles`. -/
inductive InitErr
  | mkdirFailed
  | dataCreateFailed
  | indexCreateFailed
  | bloomCreateFailed
deriving DecidableEq, Repr

/-- Outcome of `SSTable.InitTableFiles`: the returned error, which handles
remain open, and which handles the failure path explicitly closed. -/
structure InitFilesResult where
  err : Option InitErr
  openHandles : List FileId
  closedHandles : List FileId
deriving DecidableEq, Repr

/-- `SSTable.InitTableFiles`: create the storage directory and the data,
index, and bloom files in that order; on a creation failure, close the
handles already opened for this table and return the error. -/
def InitTableFiles (o : IOOracle) : InitFilesResult :=
  if o.mkdirOk = false then ⟨some .mkdirFailed, [], []⟩
  else if o.dataOk = false then ⟨some .dataCreateFailed, [], []⟩
  else if o.indexOk = false then ⟨some .indexCreateFailed, [], [.data]⟩
  else if o.bloomOk = false then ⟨some .bloomCreateFailed, [], [.data, .index]⟩
  else ⟨none, [.data, .index, .bloom], []⟩

/-- What `InitSSTableOnDisk` (the `Build` entry point) does, observed from
outside: the error it surfaces to its caller, whether the write path ran,
and the table it returns. -/
structure BuildOutcome where
  surfacedErr : Option InitErr
  writeAttempted : Bool
  table : SSTable
deriving DecidableEq, Repr

/-- `InitSSTableOnDisk`: allocate the table, call `InitTableFiles`, then
`writeEntriesToSST`.  The Go code writes `table.InitTableFiles(directory)`
as a bare statement: the returned error is discarded, the function's own
signature returns only `*SSTable`, and `writeEntriesToSST` runs
unconditionally. -/
def InitSSTableOnDiskWithOracle (o : IOOracle) (entries : List Record) : BuildOutcome :=
  let initResult := InitTableFiles o
  ⟨(fun _ => none) initResult.err, true, writeEntriesToSST entries emptyTable⟩

/-- The table produced by a fully successful `InitSSTableOnDisk`. -/
def InitSSTableOnDisk (entries : List Record) : SSTable :=
  (InitSSTableOnDiskWithOracle ⟨true, true, true, true⟩ entries).table

/-- Result of the candidate-offset binary search, including its two
abnormal exits: `panicked` marks the Go runtime panic raised by the
out-of-bounds access `sst.sparseKeys[low-1]` (in the logging statement
executed just before `return low - 1`) when `low = 0`, and `fuelOut` is an
artifact of the fuel-bounded embedding, proved unreachable below. -/
inductive CandResult
  | found (i : Int)
  | panicked
  | fuelOut
deriving DecidableEq, Repr

/-- The loop of `SSTable.getCandidateByteOffsetIndex`: classic binary
search with `int` bounds; `cmp > 0` moves `low` up, `cmp < 0` moves `high`
down, equality returns `mid`.  On loop exit the code reads
`sst.sparseKeys[low-1]` for logging — an out-of-bounds access when
`low = 0` — and returns `low - 1`.  The `fuel` parameter only bounds the
iteration count and is proved sufficient at the call site; `mid` is
computed where `0 ≤ low ≤ high`, so `/` agrees with Go's `int` division. -/
def candLoop (keys : List SparseIndexEntry) (target : Str) :
    Nat → Int → Int → CandResult
  | 0, _, _ => .fuelOut
  | fuel + 1, low, high =>
      if low ≤ high then
        let mid := (low + high) / 2
        match strCmp target ((keys.getD mid.toNat defEntry).key) with
        | .gt => candLoop keys target fuel (mid + 1) high
        | .lt => candLoop keys target fuel low (mid - 1)
        | .eq => .found mid
      else
        if low - 1 < 0 then .panicked else .found (low - 1)

/-- `SSTable.getCandidateByteOffsetIndex`: binary search over the sparse
keys with `low = 0`, `high = len(sparseKeys) - 1`. -/
def getCandidateByteOffsetIndex (sst : SSTable) (targetKey : Str) : CandResult :=
  candLoop sst.sparseKeys targetKey (sst.sparseKeys.length + 1) 0
    ((sst.sparseKeys.length : Int) - 1)

/-- Errors a `Get` can produce.  `keyNotWithinTable` and `keyNotFound` are
the two distinct sentinel errors of the `utils` package (modelled from the
spec's error taxonomy, `utils` not being in the source tree); `ioEOF` is
`io.EOF` surfaced from a header read; `ioReadFailed` is any other failed
read; `indexOutOfRange` marks a Go index panic; `fuelExhausted` is an
artifact of the fuel-bounded loops, proved unreachable. -/
inductive GoErr
  | keyNotWithinTable
  | keyNotFound
  | ioEOF
  | ioReadFailed
  | indexOutOfRange
  | fuelExhausted
deriving DecidableEq, Repr

/-- Observable outcome of `Get`: the returned value string and error, plus
instrumentation — the number of data-file reads/seeks performed and the
number of records the scan loop fully decoded and compared. -/
structure GetOutcome where
  value : Str
  error : Option GoErr
  ioOps : Nat
  examined : Nat
deriving DecidableEq, Repr

/-- The scan loop of `SSTable.Get` over the remaining bytes of the data
file from the current offset.  Each iteration: `ReadFull` a 17-byte header
(`io.EOF`, i.e. zero bytes available, returns the error; a short read
leaves the rest of the zeroed buffer and is *not* caught, since
`errors.Is(err, io.EOF)` does not match `io.ErrUnexpectedEOF`), seek past
the header, `ReadFull` exactly `keySize+valueSize` more bytes (any error
returns), decode the record, then compare: equal key returns the value;
greater key returns `ErrKeyNotWithinTable` (the sorted-order short
circuit); smaller key seeks past the record and continues.  The loop
condition `keyFound == false || eofErr == nil` is true whenever the top of
the loop is reached, so the `return "", utils.ErrKeyNotFound` after the
loop is unreachable.  `fuel` bounds the iteration count and is proved
sufficient at the call site. -/
def scanLoop (key : Str) : Nat → List Nat → GetOutcome
  | 0, _ => ⟨[], some .fuelExhausted, 0, 0⟩
  | fuel + 1, rem =>
      if rem.length = 0 then
        ⟨[], some .ioEOF, 1, 0⟩
      else
        let hdrBytes := rem.take 17 ++ List.replicate (17 - rem.length) 0
        let h := DecodeHeader hdrBytes
        let rem2 := rem.drop 17
        if rem2.length < h.keySize + h.valueSize then
          ⟨[], some .ioReadFailed, 3, 0⟩
        else
          let r := DecodeKV (hdrBytes ++ rem2.take (h.keySize + h.valueSize))
          if r.key = key then
            ⟨r.value, none, 3, 1⟩
          else if strCmp r.key key = .gt then
            ⟨[], some .keyNotWithinTable, 3, 1⟩
          else
            let o := scanLoop key fuel (rem2.drop (h.keySize + h.valueSize))
            ⟨o.value, o.error, o.ioOps + 4, o.examined + 1⟩

/-- The literal value string `"<!>"` returned with the out-of-range
error. -/
def strBang : Str := [60, 33, 62]

/-- `SSTable.Get`: range check (`key < minKey || key > maxKey` returns
`"<!>"` with `ErrKeyNotWithinTable`, before any file operation), bloom
membership check (returns `""` with the same error, before any file
operation), candidate-offset binary search, seek to the candidate offset
(the one `ioOps` added at the end), then the scan loop over the remaining
data-file bytes.  Fuel `data.length + 1` is proved sufficient below. -/
def Get (sst : SSTable) (key : Str) : GetOutcome :=
  if strCmp key sst.minKey = .lt ∨ strCmp key sst.maxKey = .gt then
    ⟨strBang, some .keyNotWithinTable, 0, 0⟩
  else if MightContain sst.bloomFilter key = false then
    ⟨[], some .keyNotWithinTable, 0, 0⟩
  else
    match getCandidateByteOffsetIndex sst key with
    | .panicked => ⟨[], some .indexOutOfRange, 0, 0⟩
    | .fuelOut => ⟨[], some .fuelExhausted, 0, 0⟩
    | .found idx =>
        let off := (sst.sparseKeys.getD idx.toNat defEntry).byteOffset
        let o := scanLoop key (sst.data.length + 1) (sst.data.drop off)
        ⟨o.value, o.error, o.ioOps + 1, o.examined⟩

/-- Reference description of the scan loop on a well-formed region: the
pure scan over the decoded record list that the byte-level loop is proved
to implement. -/
def logicalScan (key : Str) : List Record → GetOutcome
  | [] => ⟨[], some .ioEOF, 1, 0⟩
  | r :: rest =>
      if r.key = key then ⟨r.value, none, 3, 1⟩
      else if strCmp r.key key = .gt then ⟨[], some .keyNotWithinTable, 3, 1⟩
      else
        let o := logicalScan key rest
        ⟨o.value, o.error, o.ioOps + 4, o.examined + 1⟩

/-- Adjacent-pairs strict ascent of a batch by key, the precondition
`Build` documents for its input. -/
def strictlyAscending : List Record → Bool
  | [] => true
  | [_] => true
  | a :: b :: rest =>
      (strCmp a.key b.key == Ordering.lt) && strictlyAscending (b :: rest)

/-! ## Concrete instances used by counterexamples and witnesses -/

/-- A well-formed record with the given key and value. -/
def mkRec (k v : Str) : Record :=
  ⟨⟨0, 0, 0, k.length, v.length⟩, k, v, (17 + k.length + v.length) % 4294967296⟩

/-- A three-record strictly ascending batch with keys `"aa"`, `"cc"`,
`"ee"`. -/
def exBatch : List Record :=
  [mkRec [97, 97] [1], mkRec [99, 99] [2], mkRec [101, 101] [3]]

/-- The table built from `exBatch`. -/
def exTable : SSTable := InitSSTableOnDisk exBatch

/-- An absent in-range key (`"d\x18"`) that happens to pass `exTable`'s
bloom filter, so `Get` runs its scan loop and overshoots at `"ee"`. -/
def exKey : Str := [100, 24]

/-- A table whose single sparse key is `"b"`, exposing the binary search to
a target smaller than every sparse key. -/
def oneKeyTable : SSTable :=
  ⟨[98], [98], [⟨1, [98], 0⟩], ⟨[true], 1, 1⟩, [], 0⟩

/-- A table whose data file holds only a record with key `"a"` while its
`maxKey` field is `"c"` and its bloom filter accepts everything, so a scan
for `"b"` runs off the end of the file. -/
def eofTable : SSTable :=
  ⟨[97], [99], [⟨1, [97], 0⟩], ⟨[true], 1, 1⟩, encodeRecord (mkRec [97] [5]), 0⟩

/-- A table whose bloom filter (all bits clear) rejects every key, used to
exercise the two no-scan rejection branches of `Get`. -/
def rejTable : SSTable :=
  ⟨[97], [99], [⟨1, [97], 0⟩], ⟨[false], 1, 1⟩, [], 0⟩

/-- Oracle describing the run in which the data file is created but the
index-file creation fails. -/
def failIndexOracle : IOOracle := ⟨true, true, false, true⟩

/-- A minimal one-record batch. -/
def sampleEntries : List Record := [mkRec [97] [1]]

/-! ## C2: range rejection happens before any file I/O -/

/-- C2: for every table and every key with `key < minKey` or
`key > maxKey`, `Get` returns value `"<!>"` with `ErrKeyNotWithinTable`
(the OutOfRange outcome) having performed zero reads or seeks of the data
file (`ioOps = 0`). -/
theorem get_out_of_range_no_io (sst : SSTable) (key : Str)
    (h : strCmp key sst.minKey = .lt ∨ strCmp key sst.maxKey = .gt) :
    Get sst key = ⟨strBang, some .keyNotWithinTable, 0, 0⟩ := by
  unfold Get
  rw [if_pos h]

/-- Witness for `get_out_of_range_no_io` at the concrete table `rejTable`
and key `"2"`. -/
theorem get_out_of_range_no_io_witness :
    (strCmp [50] rejTable.minKey = .lt ∨ strCmp [50] rejTable.maxKey = .gt) ∧
    Get rejTable [50] = ⟨strBang, some .keyNotWithinTable, 0, 0⟩ :=
  ⟨by decide, get_out_of_range_no_io rejTable [50] (by decide)⟩

/-! ## C10: the two no-scan rejection branches return different value
strings -/

/-- C10: with the same error `ErrKeyNotWithinTable`, the range-check
rejection returns the literal value string `"<!>"` while the bloom-filter
rejection returns the empty string. -/
theorem get_rejection_value_strings (sst : SSTable) (k1 k2 : Str)
    (h1 : strCmp k1 sst.minKey = .lt ∨ strCmp k1 sst.maxKey = .gt)
    (h2 : ¬(strCmp k2 sst.minKey = .lt ∨ strCmp k2 sst.maxKey = .gt))
    (h3 : MightContain sst.bloomFilter k2 = false) :
    Get sst k1 = ⟨strBang, some .keyNotWithinTable, 0, 0⟩ ∧
    Get sst k2 = ⟨[], some .keyNotWithinTable, 0, 0⟩ := by
  constructor
  · unfold Get; rw [if_pos h1]
  · unfold Get; rw [if_neg h2, if_pos h3]

/-- Witness for `get_rejection_value_strings` on `rejTable`: key `"2"` is
below `minKey`, key `"b"` is in range but rejected by the (all-clear)
bloom filter. -/
theorem get_rejection_value_strings_witness :
    ((strCmp [50] rejTable.minKey = .lt ∨ strCmp [50] rejTable.maxKey = .gt) ∧
      ¬(strCmp [98] rejTable.minKey = .lt ∨ strCmp [98] rejTable.maxKey = .gt) ∧
      MightContain rejTable.bloomFilter [98] = false) ∧
    Get rejTable [50] = ⟨strBang, some .keyNotWithinTable, 0, 0⟩ ∧
    Get rejTable [98] = ⟨[], some .keyNotWithinTable, 0, 0⟩ :=
  ⟨by decide,
    get_rejection_value_strings rejTable [50] [98] (by decide) (by decide) (by decide)⟩

/-! ## C4: binary search on a target below all sparse keys -/

/-- C4 (code bug evidence): with a single sparse key `"b"` and target
`"a"`, the binary search exits its loop with `low = 0`, and the code then
evaluates `sst.sparseKeys[low-1]`, i.e. `sparseKeys[-1]` — an out-of-bounds
index access (a Go runtime panic, `CandResult.panicked` in this model) —
instead of yielding a "no candidate" sentinel. -/
theorem candidate_below_all_keys_panics :
    getCandidateByteOffsetIndex oneKeyTable [97] = .panicked := by decide

/-! ## C5: file-creation failure during Build -/

/-- C5 (code bug evidence): when index-file creation fails after the data
file was created, `InitTableFiles` does close the data handle and return
the error, but `InitSSTableOnDisk` (the `Build` entry point) discards that
error — its own signature surfaces nothing to its caller — and executes the
write path (`writeEntriesToSST`) anyway. -/
theorem build_swallows_file_creation_failure :
    (InitTableFiles failIndexOracle).err = some .indexCreateFailed ∧
    (InitTableFiles failIndexOracle).closedHandles = [.data] ∧
    (InitSSTableOnDiskWithOracle failIndexOracle sampleEntries).surfacedErr = none ∧
    (InitSSTableOnDiskWithOracle failIndexOracle sampleEntries).writeAttempted = true := by
  refine ⟨by decide, by decide, rfl, rfl⟩

/-! ## C8: the scan loop (and the binary search) always terminate -/

/-- The scan loop never exhausts its fuel when given more fuel than there
are bytes left: every iteration either returns or drops at least the
17-byte header off the remaining bytes. -/
lemma scanLoop_ne_fuelExhausted (key : Str) :
    ∀ (fuel : Nat) (rem : List Nat), rem.length < fuel →
      (scanLoop key fuel rem).error ≠ some GoErr.fuelExhausted := by
  intro fuel
  induction fuel with
  | zero => intro rem h; omega
  | succ f ih =>
    intro rem h
    rw [scanLoop]
    dsimp only
    split
    · simp
    · split
      · simp
      · split
        · simp
        · split
          · simp
          · dsimp only
            apply ih
            rename_i hne _ _ _
            simp only [List.length_drop]
            omega

/-- The binary-search loop never exhausts its fuel when given more fuel
than the size of the search interval: every iteration shrinks
`high - low + 1` by at least one. -/
lemma candLoop_ne_fuelOut (keys : List SparseIndexEntry) (target : Str) :
    ∀ (fuel : Nat) (low high : Int), (high + 1 - low).toNat < fuel →
      candLoop keys target fuel low high ≠ .fuelOut := by
  intro fuel
  induction fuel with
  | zero => intro low high h; omega
  | succ f ih =>
    intro low high h
    rw [candLoop]
    dsimp only
    split
    · rename_i hlh
      split
      · apply ih
        omega
      · apply ih
        omega
      · simp
    · split <;> simp

/-- C8: the scan loop of `Get` always terminates: for every table and key,
`Get` never reports the (unreachable) fuel-exhaustion artifact, because the
read offset advances past at least one full record each iteration and is
bounded by the data-file length, so `length + 1` loop iterations always
suffice — and likewise for the candidate binary search. -/
theorem get_scan_always_terminates (sst : SSTable) (key : Str) :
    (Get sst key).error ≠ some GoErr.fuelExhausted := by
  unfold Get
  split
  · simp
  · split
    · simp
    · generalize hc : getCandidateByteOffsetIndex sst key = c
      cases c with
      | panicked => simp
      | fuelOut =>
        exfalso
        refine candLoop_ne_fuelOut sst.sparseKeys key (sst.sparseKeys.length + 1) 0
          ((sst.sparseKeys.length : Int) - 1) (by omega) ?_
        exact hc
      | found idx =>
        dsimp only
        apply scanLoop_ne_fuelExhausted
        simp only [List.length_drop]
        omega

/-! ## C9: the candidate index is in bounds for in-range keys -/

/-- Binary-search invariant: if the target is not below the key at index 0,
then from any state with `0 ≤ low ≤ high + 1`, `high < length`, and
`high ≥ 0` whenever `low = 0`, the loop returns `.found i` with
`0 ≤ i < length`.  The loop can only reach `low = 0, high = -1` (the
panicking exit) by comparing the target below index 0. -/
lemma candLoop_found_bounds (keys : List SparseIndexEntry) (target : Str)
    (h0 : strCmp target (keys.getD 0 defEntry).key ≠ .lt) :
    ∀ (fuel : Nat) (low high : Int), (high + 1 - low).toNat < fuel →
      0 ≤ low → low ≤ high + 1 → high < (keys.length : Int) →
      (low = 0 → 0 ≤ high) →
      ∃ i : Int, candLoop keys target fuel low high = .found i ∧
        0 ≤ i ∧ i < (keys.length : Int) := by
  intro fuel
  induction fuel with
  | zero => intro low high h; omega
  | succ f ih =>
    intro low high hf hl0 hlh hhl hze
    rw [candLoop]
    dsimp only
    split
    · rename_i hcase
      split
      · rename_i hcmp
        apply ih <;> omega
      · rename_i hcmp
        apply ih
        · omega
        · omega
        · -- low ≤ (mid - 1) + 1
          omega
        · omega
        · -- if low = 0 then 0 ≤ mid - 1, else vacuous at the call
          intro hlow0
          subst hlow0
          by_contra hneg
          have hmid0 : (0 + high) / 2 = 0 := by omega
          rw [hmid0] at hcmp
          exact h0 hcmp
      · rename_i hcmp
        exact ⟨(low + high) / 2, rfl, by omega, by omega⟩
    · rename_i hcase
      have hlow1 : 1 ≤ low := by
        by_contra hneg
        have : low = 0 := by omega
        exact hcase (by omega)
      rw [if_neg (by omega)]
      exact ⟨low - 1, rfl, by omega, by omega⟩

/-- C9: whenever the sparse-key array is non-empty with its first key equal
to `minKey` (as `Build` establishes) and the target key is not below
`minKey`, `getCandidateByteOffsetIndex` returns an index in
`[0, len(sparseKeys) - 1]`, so `Get`'s subsequent `sst.sparseKeys[idx]`
lookup is in bounds. -/
theorem candidate_index_in_bounds (sst : SSTable) (key : Str)
    (hne : sst.sparseKeys ≠ [])
    (hfst : (sst.sparseKeys.getD 0 defEntry).key = sst.minKey)
    (hge : strCmp key sst.minKey ≠ .lt) :
    ∃ i : Int, getCandidateByteOffsetIndex sst key = .found i ∧
      0 ≤ i ∧ i.toNat < sst.sparseKeys.length := by
  have hlen : 0 < sst.sparseKeys.length := List.length_pos.mpr hne
  have h0 : strCmp key (sst.sparseKeys.getD 0 defEntry).key ≠ .lt := by
    rw [hfst]; exact hge
  obtain ⟨i, hi, h1, h2⟩ := candLoop_found_bounds sst.sparseKeys key h0
    (sst.sparseKeys.length + 1) 0 ((sst.sparseKeys.length : Int) - 1)
    (by omega) (by omega) (by omega) (by omega) (by omega)
  exact ⟨i, hi, h1, by omega⟩

/-- Witness for `candidate_index_in_bounds` on `rejTable` (sparse keys
`["a"]`, `minKey = "a"`) with key `"b"`. -/
theorem candidate_index_in_bounds_witness :
    (rejTable.sparseKeys ≠ [] ∧
      (rejTable.sparseKeys.getD 0 defEntry).key = rejTable.minKey ∧
      strCmp [98] rejTable.minKey ≠ .lt) ∧
    (∃ i : Int, getCandidateByteOffsetIndex rejTable [98] = .found i ∧
      0 ≤ i ∧ i.toNat < rejTable.sparseKeys.length) :=
  ⟨by decide, candidate_index_in_bounds rejTable [98] (by decide) (by decide) (by decide)⟩

/-! ## C7: the bloom filter has no false negatives for built tables -/

/-- Setting a bit in range makes `getD` read it back as `true`. -/
lemma getD_set_true (bs : List Bool) (p : Nat) (hp : p < bs.length) :
    (bs.set p true).getD p false = true := by
  induction bs generalizing p with
  | nil => simp at hp
  | cons b bs ih =>
    cases p with
    | zero => simp [List.set]
    | succ q =>
      simp only [List.set, List.getD_cons_succ]
      exact ih q (by simpa using hp)

/-- Setting a bit never clears another. -/
lemma getD_set_mono (bs : List Bool) (p q : Nat)
    (h : bs.getD q false = true) :
    (bs.set p true).getD q false = true := by
  induction bs generalizing p q with
  | nil => exact h
  | cons b bs ih =>
    cases p with
    | zero =>
      cases q with
      | zero => simp [List.set]
      | succ q' => simpa [List.set, List.getD_cons_succ] using h
    | succ p' =>
      cases q with
      | zero => simpa [List.set] using h
      | succ q' =>
        simp only [List.set, List.getD_cons_succ] at h ⊢
        exact ih p' q' h

/-- Folding bit-sets over a position list preserves the array length. -/
lemma foldl_set_length (ps : List Nat) (bs : List Bool) :
    (ps.foldl (fun l p => l.set p true) bs).length = bs.length := by
  induction ps generalizing bs with
  | nil => rfl
  | cons p ps ih => simp only [List.foldl_cons]; rw [ih, List.length_set]

/-- Folding bit-sets preserves bits that are already set. -/
lemma foldl_set_mono (ps : List Nat) (bs : List Bool) (q : Nat)
    (h : bs.getD q false = true) :
    (ps.foldl (fun l p => l.set p true) bs).getD q false = true := by
  induction ps generalizing bs with
  | nil => exact h
  | cons p ps ih =>
    simp only [List.foldl_cons]
    exact ih _ (getD_set_mono bs p q h)

/-- Folding bit-sets over a position list sets every in-range listed
position. -/
lemma foldl_set_sets (ps : List Nat) (bs : List Bool) (p : Nat)
    (hp : p ∈ ps) (hlen : p < bs.length) :
    (ps.foldl (fun l p => l.set p true) bs).getD p false = true := by
  induction ps generalizing bs with
  | nil => simp at hp
  | cons a ps ih =>
    simp only [List.foldl_cons]
    rcases List.mem_cons.mp hp with rfl | hmem
    · exact foldl_set_mono ps _ p (getD_set_true bs p hlen)
    · exact ih _ hmem (by rw [List.length_set]; exact hlen)

/-- `Add` changes neither the declared bit-array size nor the hash count,
and preserves the actual array length. -/
lemma bloomAdd_fields (bf : BloomFilter) (k : Str) :
    (bloomAdd bf k).bitSetSize = bf.bitSetSize ∧
    (bloomAdd bf k).numHashFuncs = bf.numHashFuncs ∧
    (bloomAdd bf k).bitSet.length = bf.bitSet.length :=
  ⟨rfl, rfl, foldl_set_length _ _⟩

/-- After adding a key, every probed position of that key is set. -/
lemma mightContain_after_add (bf : BloomFilter) (k : Str)
    (hpos : 0 < bf.bitSetSize) (hlen : bf.bitSet.length = bf.bitSetSize) :
    MightContain (bloomAdd bf k) k = true := by
  have hsame : bloomPositions (bloomAdd bf k) k = bloomPositions bf k := rfl
  rw [MightContain, hsame, List.all_eq_true]
  intro p hp
  have hbound : p < bf.bitSet.length := by
    rw [hlen]
    simp only [bloomPositions, List.mem_map] at hp
    obtain ⟨i, _, rfl⟩ := hp
    exact Nat.mod_lt _ hpos
  exact foldl_set_sets _ _ p hp hbound

/-- Adding further keys never makes a contained key uncontained. -/
lemma mightContain_mono (bf : BloomFilter) (k k' : Str)
    (h : MightContain bf k = true) :
    MightContain (bloomAdd bf k') k = true := by
  have hsame : bloomPositions (bloomAdd bf k') k = bloomPositions bf k := rfl
  rw [MightContain, hsame, List.all_eq_true]
  rw [MightContain, List.all_eq_true] at h
  intro p hp
  exact foldl_set_mono _ _ p (by simpa using h p hp)

/-- `populateBloomFilter` preserves the size fields, the array length, and
containment. -/
lemma populate_preserves (entries : List Record) :
    ∀ bf : BloomFilter,
      (populateBloomFilter entries bf).bitSetSize = bf.bitSetSize ∧
      (populateBloomFilter entries bf).numHashFuncs = bf.numHashFuncs ∧
      (populateBloomFilter entries bf).bitSet.length = bf.bitSet.length ∧
      (∀ k : Str, MightContain bf k = true →
        MightContain (populateBloomFilter entries bf) k = true) := by
  induction entries with
  | nil => intro bf; exact ⟨rfl, rfl, rfl, fun _ h => h⟩
  | cons r rest ih =>
    intro bf
    have hstep := bloomAdd_fields bf r.key
    have hrest := ih (bloomAdd bf r.key)
    refine ⟨?_, ?_, ?_, ?_⟩
    · rw [populateBloomFilter, List.foldl_cons]
      exact (hrest.1).trans hstep.1
    · rw [populateBloomFilter, List.foldl_cons]
      exact (hrest.2.1).trans hstep.2.1
    · rw [populateBloomFilter, List.foldl_cons]
      exact (hrest.2.2.1).trans hstep.2.2
    · intro k hk
      rw [populateBloomFilter, List.foldl_cons]
      exact hrest.2.2.2 k (mightContain_mono bf k r.key hk)

/-- C7: every key of the batch is added to the built table's bloom filter
and `MightContain` then returns `true` for it — no false negatives — so
`Get` on a key present in the batch never takes the membership-check
rejection branch (whose condition is exactly `MightContain … = false`). -/
theorem built_bloom_no_false_negatives (entries : List Record) (r : Record)
    (hne : entries ≠ []) (hr : r ∈ entries) :
    MightContain (InitSSTableOnDisk entries).bloomFilter r.key = true := by
  have hn : 0 < entries.length := List.length_pos.mpr hne
  obtain ⟨s, t, rfl⟩ := List.append_of_mem hr
  show MightContain
    (populateBloomFilter (s ++ r :: t) (InitBloomFilterAttrs (s ++ r :: t).length))
    r.key = true
  have hsplit : populateBloomFilter (s ++ r :: t) (InitBloomFilterAttrs (s ++ r :: t).length)
      = populateBloomFilter t
          (bloomAdd (populateBloomFilter s (InitBloomFilterAttrs (s ++ r :: t).length)) r.key) := by
    simp only [populateBloomFilter, List.foldl_append, List.foldl_cons]
  rw [hsplit]
  have hs := populate_preserves s (InitBloomFilterAttrs (s ++ r :: t).length)
  have hsize : (populateBloomFilter s (InitBloomFilterAttrs (s ++ r :: t).length)).bitSetSize
      = 10 * (s ++ r :: t).length := hs.1
  have hlen : (populateBloomFilter s (InitBloomFilterAttrs (s ++ r :: t).length)).bitSet.length
      = (populateBloomFilter s (InitBloomFilterAttrs (s ++ r :: t).length)).bitSetSize := by
    rw [hs.2.2.1, hsize]
    simp [InitBloomFilterAttrs]
  have hadd := mightContain_after_add
    (populateBloomFilter s (InitBloomFilterAttrs (s ++ r :: t).length)) r.key
    (by rw [hsize]; omega) hlen
  have ht := populate_preserves t
    (bloomAdd (populateBloomFilter s (InitBloomFilterAttrs (s ++ r :: t).length)) r.key)
  exact ht.2.2.2 r.key hadd

/-- Witness for `built_bloom_no_false_negatives` on `exBatch` and its first
record. -/
theorem built_bloom_no_false_negatives_witness :
    (exBatch ≠ [] ∧ mkRec [97, 97] [1] ∈ exBatch) ∧
    MightContain (InitSSTableOnDisk exBatch).bloomFilter (mkRec [97, 97] [1]).key = true :=
  ⟨by decide,
    built_bloom_no_false_negatives exBatch (mkRec [97, 97] [1]) (by decide) (by decide)⟩

/-! ## The scan loop over well-formed encoded regions -/

/-- An encoded header is 17 bytes. -/
lemma length_encodeHeader (h : Header) : (encodeHeader h).length = 17 := by
  simp [encodeHeader, u32le]

/-- An encoded record is header plus key plus value bytes. -/
lemma length_encodeRecord (r : Record) :
    (encodeRecord r).length = 17 + r.key.length + r.value.length := by
  simp [encodeRecord, length_encodeHeader]
  omega

/-- Decoding the key-size field back out of an encoded header is the
identity for `uint32` values, whatever bytes follow the header. -/
lemma decodeHeader_append_keySize (h : Header) (X : List Nat)
    (hb : h.keySize < 4294967296) :
    (DecodeHeader (encodeHeader h ++ X)).keySize = h.keySize := by
  have hc : (DecodeHeader (encodeHeader h ++ X)).keySize =
      h.keySize % 256 + 256 * (h.keySize / 256 % 256) +
      65536 * (h.keySize / 65536 % 256) +
      16777216 * (h.keySize / 16777216 % 256) := rfl
  rw [hc]
  omega

/-- As `decodeHeader_append_keySize`, with nothing following the header. -/
lemma decodeHeader_keySize (h : Header) (hb : h.keySize < 4294967296) :
    (DecodeHeader (encodeHeader h)).keySize = h.keySize := by
  have hc : (DecodeHeader (encodeHeader h)).keySize =
      h.keySize % 256 + 256 * (h.keySize / 256 % 256) +
      65536 * (h.keySize / 65536 % 256) +
      16777216 * (h.keySize / 16777216 % 256) := rfl
  rw [hc]
  omega

/-- As `decodeHeader_keySize`, for the value-size field. -/
lemma decodeHeader_valueSize (h : Header) (hb : h.valueSize < 4294967296) :
    (DecodeHeader (encodeHeader h)).valueSize = h.valueSize := by
  have hc : (DecodeHeader (encodeHeader h)).valueSize =
      h.valueSize % 256 + 256 * (h.valueSize / 256 % 256) +
      65536 * (h.valueSize / 65536 % 256) +
      16777216 * (h.valueSize / 16777216 % 256) := rfl
  rw [hc]
  omega

/-- As `decodeHeader_append_keySize`, for the value-size field. -/
lemma decodeHeader_append_valueSize (h : Header) (X : List Nat)
    (hb : h.valueSize < 4294967296) :
    (DecodeHeader (encodeHeader h ++ X)).valueSize = h.valueSize := by
  have hc : (DecodeHeader (encodeHeader h ++ X)).valueSize =
      h.valueSize % 256 + 256 * (h.valueSize / 256 % 256) +
      65536 * (h.valueSize / 65536 % 256) +
      16777216 * (h.valueSize / 16777216 % 256) := rfl
  rw [hc]
  omega

/-- Decoding an encoded well-formed record recovers its key and value. -/
lemma decodeKV_fields (h : Header) (k v : List Nat)
    (hk : h.keySize = k.length) (hv : h.valueSize = v.length)
    (hk32 : k.length < 4294967296) (hv32 : v.length < 4294967296) :
    (DecodeKV (encodeHeader h ++ (k ++ v))).key = k ∧
    (DecodeKV (encodeHeader h ++ (k ++ v))).value = v := by
  have hKS := decodeHeader_append_keySize h (k ++ v) (hk ▸ hk32)
  have hVS := decodeHeader_append_valueSize h (k ++ v) (hv ▸ hv32)
  have hEH := length_encodeHeader h
  constructor
  · show ((encodeHeader h ++ (k ++ v)).drop 17).take
        (DecodeHeader (encodeHeader h ++ (k ++ v))).keySize = k
    rw [hKS, hk, ← hEH, List.drop_left]
    exact List.take_left k v
  · show ((encodeHeader h ++ (k ++ v)).drop
        (17 + (DecodeHeader (encodeHeader h ++ (k ++ v))).keySize)).take
        (DecodeHeader (encodeHeader h ++ (k ++ v))).valueSize = v
    rw [hKS, hVS, hk, hv]
    rw [← List.drop_drop, ← hEH, List.drop_left, List.drop_left, List.take_length]

/-- One iteration of the byte-level scan loop over a well-formed encoded
record followed by arbitrary bytes behaves exactly as the source describes:
match returns the value, overshoot returns `ErrKeyNotWithinTable`, smaller
key advances past the record and continues. -/
lemma scanLoop_step (key : Str) (fuel : Nat) (r : Record) (rest : List Nat)
    (hwf : WFRecord r) :
    scanLoop key (fuel + 1) (encodeRecord r ++ rest) =
      (if r.key = key then ⟨r.value, none, 3, 1⟩
       else if strCmp r.key key = .gt then ⟨[], some .keyNotWithinTable, 3, 1⟩
       else
         (fun o => (⟨o.value, o.error, o.ioOps + 4, o.examined + 1⟩ : GetOutcome))
           (scanLoop key fuel rest)) := by
  obtain ⟨hks, hvs, hk32, hv32, -, -, -⟩ := hwf
  have hEH : (encodeHeader r.header).length = 17 := length_encodeHeader r.header
  have hassoc : encodeRecord r ++ rest
      = encodeHeader r.header ++ ((r.key ++ r.value) ++ rest) := by
    simp [encodeRecord, List.append_assoc]
  have hlen : (encodeRecord r ++ rest).length
      = 17 + (r.key.length + r.value.length + rest.length) := by
    simp [length_encodeRecord]
    omega
  have htake : (encodeRecord r ++ rest).take 17 = encodeHeader r.header := by
    rw [hassoc, ← hEH, List.take_left]
  have hpad : List.replicate (17 - (encodeRecord r ++ rest).length) 0 = ([] : List Nat) := by
    rw [hlen]
    simp
  have hdrop : (encodeRecord r ++ rest).drop 17 = (r.key ++ r.value) ++ rest := by
    rw [hassoc, ← hEH, List.drop_left]
  rw [scanLoop]
  dsimp only
  rw [if_neg (by omega)]
  rw [htake, hpad, List.append_nil, hdrop]
  rw [decodeHeader_keySize r.header (hks ▸ hk32),
    decodeHeader_valueSize r.header (hvs ▸ hv32)]
  rw [if_neg (by simp only [List.length_append]; omega)]
  have hbody : ((r.key ++ r.value) ++ rest).take (r.header.keySize + r.header.valueSize)
      = r.key ++ r.value := by
    rw [hks, hvs, show r.key.length + r.value.length = (r.key ++ r.value).length by simp,
      List.take_left]
  have hrest : ((r.key ++ r.value) ++ rest).drop (r.header.keySize + r.header.valueSize)
      = rest := by
    rw [hks, hvs, show r.key.length + r.value.length = (r.key ++ r.value).length by simp,
      List.drop_left]
  rw [hbody, hrest]
  obtain ⟨hdk, hdv⟩ := decodeKV_fields r.header r.key r.value hks hvs hk32 hv32
  rw [hdk, hdv]

/-- The byte-level scan loop over an encoded well-formed record list is
the pure scan over the records, given more fuel than there are records. -/
lemma scanLoop_encodeAll (key : Str) :
    ∀ (rs : List Record) (fuel : Nat), rs.length < fuel →
      (∀ r ∈ rs, WFRecord r) →
      scanLoop key fuel (encodeAll rs) = logicalScan key rs := by
  intro rs
  induction rs with
  | nil =>
    intro fuel hf _
    cases fuel with
    | zero => omega
    | succ f => rw [encodeAll, scanLoop, logicalScan]; simp
  | cons r rest ih =>
    intro fuel hf hwf
    cases fuel with
    | zero => simp at hf
    | succ f =>
      rw [encodeAll, scanLoop_step key f r _ (hwf r (List.mem_cons_self r rest)),
        logicalScan]
      rw [ih f (by simp at hf ⊢; omega) (fun x hx => hwf x (List.mem_cons_of_mem r hx))]

/-- A record list is never longer than its encoding. -/
lemma length_le_encodeAll (rs : List Record) :
    rs.length ≤ (encodeAll rs).length := by
  induction rs with
  | nil => simp [encodeAll]
  | cons r rest ih =>
    rw [encodeAll]
    simp only [List.length_append, List.length_cons, length_encodeRecord]
    omega

/-- Encoding distributes over append. -/
lemma encodeAll_append (a b : List Record) :
    encodeAll (a ++ b) = encodeAll a ++ encodeAll b := by
  induction a with
  | nil => simp [encodeAll]
  | cons r rest ih => simp [encodeAll, ih]

/-- `strCmp` is reflexive. -/
lemma strCmp_self (a : Str) : strCmp a a = .eq := by
  induction a with
  | nil => rfl
  | cons x xs ih => simp [strCmp, ih]

/-- A key that compares `lt` or `gt` against another is not equal to it. -/
lemma strCmp_ne_of_ne_eq (a b : Str) (h : strCmp a b ≠ .eq) : a ≠ b := by
  intro hab
  exact h (hab ▸ strCmp_self a)

/-- The pure scan on a region whose records below the target strictly
precede one overshooting record stops at the overshoot: empty value,
`ErrKeyNotWithinTable`, and exactly the records up to and including the
overshoot examined. -/
lemma logicalScan_overshoot (key : Str) (pre post : List Record) (ovr : Record)
    (hpre : ∀ p ∈ pre, strCmp p.key key = .lt)
    (hovr : strCmp ovr.key key = .gt) :
    logicalScan key (pre ++ ovr :: post) =
      ⟨[], some .keyNotWithinTable, 3 + 4 * pre.length, pre.length + 1⟩ := by
  induction pre with
  | nil =>
    rw [List.nil_append, logicalScan]
    rw [if_neg (strCmp_ne_of_ne_eq ovr.key key (by rw [hovr]; simp)), if_pos hovr]
    simp
  | cons p pre ih =>
    have hp := hpre p (List.mem_cons_self p pre)
    rw [List.cons_append, logicalScan]
    rw [if_neg (strCmp_ne_of_ne_eq p.key key (by rw [hp]; simp)),
      if_neg (by rw [hp]; simp)]
    rw [ih (fun q hq => hpre q (List.mem_cons_of_mem p hq))]
    simp only [List.length_cons, GetOutcome.mk.injEq, and_true, true_and]
    omega

/-- The pure scan on a region all of whose records are below the target
runs off the end: empty value, `io.EOF`, every record examined. -/
lemma logicalScan_all_lt (key : Str) (l : List Record)
    (h : ∀ p ∈ l, strCmp p.key key = .lt) :
    logicalScan key l = ⟨[], some .ioEOF, 1 + 4 * l.length, l.length⟩ := by
  induction l with
  | nil => rw [logicalScan]; simp
  | cons p l ih =>
    have hp := h p (List.mem_cons_self p l)
    rw [logicalScan]
    rw [if_neg (strCmp_ne_of_ne_eq p.key key (by rw [hp]; simp)),
      if_neg (by rw [hp]; simp)]
    rw [ih (fun q hq => h q (List.mem_cons_of_mem p hq))]
    simp only [List.length_cons, GetOutcome.mk.injEq, and_true, true_and]
    omega

/-- Common shape of a `Get` that reaches its scan loop at a record-boundary
candidate offset: it computes the pure scan of the records from that
boundary on. -/
lemma get_scan_reduces (sst : SSTable) (key : Str) (rs : List Record)
    (m : Nat) (idx : Int)
    (hdata : sst.data = encodeAll rs)
    (hwf : ∀ r ∈ rs, WFRecord r)
    (hmin : strCmp key sst.minKey ≠ .lt)
    (hmax : strCmp key sst.maxKey ≠ .gt)
    (hbloom : MightContain sst.bloomFilter key = true)
    (hcand : getCandidateByteOffsetIndex sst key = .found idx)
    (hoff : (sst.sparseKeys.getD idx.toNat defEntry).byteOffset
        = (encodeAll (rs.take m)).length) :
    ∃ o : GetOutcome, o = logicalScan key (rs.drop m) ∧
      Get sst key = ⟨o.value, o.error, o.ioOps + 1, o.examined⟩ := by
  refine ⟨logicalScan key (rs.drop m), rfl, ?_⟩
  unfold Get
  rw [if_neg (by intro hor; rcases hor with h | h; exacts [hmin h, hmax h])]
  rw [if_neg (by rw [hbloom]; simp)]
  rw [hcand]
  dsimp only
  rw [hoff, hdata]
  have hsplit : encodeAll rs = encodeAll (rs.take m) ++ encodeAll (rs.drop m) := by
    rw [← encodeAll_append, List.take_append_drop]
  rw [hsplit, List.drop_left]
  rw [scanLoop_encodeAll key (rs.drop m) _
    (by
      have h1 := length_le_encodeAll (rs.drop m)
      simp only [List.length_append]
      omega)
    (fun x hx => hwf x (List.drop_subset m rs hx))]

/-! ## C1: the sorted-order short circuit -/

/-- C1 (amended): for a table whose data file is a well-formed encoded
batch, a key that passes the range and bloom checks, and a candidate offset
at a record boundary, if the records from the boundary are strictly below
the target until one strictly greater record, then `Get` stops at that
record — exactly `pre.length + 1` records are examined, none past the
overshoot — and returns the empty value with `ErrKeyNotWithinTable`, the
same error value the out-of-range and bloom-rejection branches use (not the
distinct, unreachable `ErrKeyNotFound`). -/
theorem get_overshoot_short_circuit (sst : SSTable) (key : Str)
    (rs pre post : List Record) (ovr : Record) (m : Nat) (idx : Int)
    (hdata : sst.data = encodeAll rs)
    (hwf : ∀ r ∈ rs, WFRecord r)
    (hmin : strCmp key sst.minKey ≠ .lt)
    (hmax : strCmp key sst.maxKey ≠ .gt)
    (hbloom : MightContain sst.bloomFilter key = true)
    (hcand : getCandidateByteOffsetIndex sst key = .found idx)
    (hoff : (sst.sparseKeys.getD idx.toNat defEntry).byteOffset
        = (encodeAll (rs.take m)).length)
    (hsplit : rs.drop m = pre ++ ovr :: post)
    (hpre : ∀ p ∈ pre, strCmp p.key key = .lt)
    (hovr : strCmp ovr.key key = .gt) :
    (Get sst key).value = [] ∧
    (Get sst key).error = some GoErr.keyNotWithinTable ∧
    (Get sst key).examined = pre.length + 1 := by
  obtain ⟨o, ho, hget⟩ :=
    get_scan_reduces sst key rs m idx hdata hwf hmin hmax hbloom hcand hoff
  rw [hsplit, logicalScan_overshoot key pre post ovr hpre hovr] at ho
  rw [hget, ho]
  exact ⟨rfl, rfl, rfl⟩

/-- Witness for `get_overshoot_short_circuit`: on `exTable` (keys `"aa"`,
`"cc"`, `"ee"`) with the bloom-passing absent key `exKey`, the scan
examines `"aa"`, `"cc"`, then stops at the overshooting `"ee"`. -/
theorem get_overshoot_short_circuit_witness :
    (exTable.data = encodeAll exBatch ∧
      (∀ r ∈ exBatch, WFRecord r) ∧
      strCmp exKey exTable.minKey ≠ .lt ∧
      strCmp exKey exTable.maxKey ≠ .gt ∧
      MightContain exTable.bloomFilter exKey = true ∧
      getCandidateByteOffsetIndex exTable exKey = .found 0 ∧
      (exTable.sparseKeys.getD (0 : Int).toNat defEntry).byteOffset
        = (encodeAll (exBatch.take 0)).length ∧
      exBatch.drop 0 = [mkRec [97, 97] [1], mkRec [99, 99] [2]]
        ++ mkRec [101, 101] [3] :: [] ∧
      (∀ p ∈ [mkRec [97, 97] [1], mkRec [99, 99] [2]], strCmp p.key exKey = .lt) ∧
      strCmp (mkRec [101, 101] [3]).key exKey = .gt) ∧
    ((Get exTable exKey).value = [] ∧
      (Get exTable exKey).error = some GoErr.keyNotWithinTable ∧
      (Get exTable exKey).examined = [mkRec [97, 97] [1], mkRec [99, 99] [2]].length + 1) :=
  ⟨by decide,
    get_overshoot_short_circuit exTable exKey exBatch
      [mkRec [97, 97] [1], mkRec [99, 99] [2]] [] (mkRec [101, 101] [3]) 0 0
      (by decide) (by decide) (by decide) (by decide) (by decide) (by decide)
      (by decide) (by decide) (by decide) (by decide)⟩

/-- C1 (counterexample to the claim as stated): on the table built from
keys `"aa"`, `"cc"`, `"ee"` and the bloom-passing absent key `exKey`, the
sorted-order short circuit returns `ErrKeyNotWithinTable` — the very error
the out-of-range branch returns (shown on the out-of-range key `"2"`) — and
not the distinct `ErrKeyNotFound`, so the result is not a `NotFound`
distinct from `OutOfRange`. -/
theorem get_overshoot_error_equals_out_of_range_error :
    (Get exTable exKey).error = some GoErr.keyNotWithinTable ∧
    (Get exTable [50]).error = some GoErr.keyNotWithinTable ∧
    GoErr.keyNotWithinTable ≠ GoErr.keyNotFound := by
  refine ⟨by decide, by decide, by decide⟩

/-! ## C6: end-of-file on a header read -/

/-- C6 (amended): for a table whose data file is a well-formed encoded
batch, a key passing the range and bloom checks, and a record-boundary
candidate offset, if every record from the boundary on is strictly below
the target, the scan loop reaches end-of-file on a header read and `Get`
terminates immediately, returning the empty value with the raw `io.EOF`
error — not the distinct, unreachable `ErrKeyNotFound`. -/
theorem get_eof_terminates_with_eof_error (sst : SSTable) (key : Str)
    (rs : List Record) (m : Nat) (idx : Int)
    (hdata : sst.data = encodeAll rs)
    (hwf : ∀ r ∈ rs, WFRecord r)
    (hmin : strCmp key sst.minKey ≠ .lt)
    (hmax : strCmp key sst.maxKey ≠ .gt)
    (hbloom : MightContain sst.bloomFilter key = true)
    (hcand : getCandidateByteOffsetIndex sst key = .found idx)
    (hoff : (sst.sparseKeys.getD idx.toNat defEntry).byteOffset
        = (encodeAll (rs.take m)).length)
    (hall : ∀ p ∈ rs.drop m, strCmp p.key key = .lt) :
    (Get sst key).value = [] ∧ (Get sst key).error = some GoErr.ioEOF := by
  obtain ⟨o, ho, hget⟩ :=
    get_scan_reduces sst key rs m idx hdata hwf hmin hmax hbloom hcand hoff
  rw [logicalScan_all_lt key (rs.drop m) hall] at ho
  rw [hget, ho]
  exact ⟨rfl, rfl⟩

/-- Witness for `get_eof_terminates_with_eof_error` on `eofTable`, whose
single record `"a"` is below the in-range, bloom-passing target `"b"`. -/
theorem get_eof_terminates_with_eof_error_witness :
    (eofTable.data = encodeAll [mkRec [97] [5]] ∧
      (∀ r ∈ [mkRec [97] [5]], WFRecord r) ∧
      strCmp [98] eofTable.minKey ≠ .lt ∧
      strCmp [98] eofTable.maxKey ≠ .gt ∧
      MightContain eofTable.bloomFilter [98] = true ∧
      getCandidateByteOffsetIndex eofTable [98] = .found 0 ∧
      (eofTable.sparseKeys.getD (0 : Int).toNat defEntry).byteOffset
        = (encodeAll (([mkRec [97] [5]] : List Record).take 0)).length ∧
      (∀ p ∈ ([mkRec [97] [5]] : List Record).drop 0, strCmp p.key [98] = .lt)) ∧
    ((Get eofTable [98]).value = [] ∧ (Get eofTable [98]).error = some GoErr.ioEOF) :=
  ⟨by decide,
    get_eof_terminates_with_eof_error eofTable [98] [mkRec [97] [5]] 0 0
      (by decide) (by decide) (by decide) (by decide) (by decide) (by decide)
      (by decide) (by decide)⟩

/-- C6 (counterexample to the claim as stated): on `eofTable`, the key
`"b"` passes the range and bloom checks and the scan reaches end-of-file on
its second header read, but `Get` returns the raw `io.EOF` error, not the
distinct `ErrKeyNotFound` (the error the `utils` taxonomy reserves for
`NotFound`), which is unreachable dead code after the loop. -/
theorem get_eof_returns_raw_eof_not_notfound :
    (Get eofTable [98]).error = some GoErr.ioEOF ∧
    GoErr.ioEOF ≠ GoErr.keyNotFound ∧
    GoErr.ioEOF ≠ GoErr.keyNotWithinTable := by
  refine ⟨by decide, by decide, by decide⟩

/-! ## C3: sparse-index layout of the build path -/

/-- Filtering a successor-mapped list is mapping the successor over a
shifted filter. -/
lemma filter_map_succ (p : Nat → Bool) (l : List Nat) :
    (l.map Nat.succ).filter p = (l.filter (fun j => p (j + 1))).map Nat.succ := by
  induction l with
  | nil => rfl
  | cons a l ih =>
    simp only [List.map_cons, List.filter_cons]
    by_cases h : p (a + 1) = true
    · rw [if_pos h, if_pos h, List.map_cons, ih]
    · rw [if_neg h, if_neg h, ih]

/-- Characterisation of the sparse-index loop: starting at batch index `i0`
with a running (already reduced) offset `off0`, it emits one entry per
index `j` with `(i0 + j) % 1000 = 0`, carrying the key data of the `j`-th
record and the accumulated offset `(off0 + Σ sizes before j) % 2^32`. -/
lemma sparseAux_char (l : List Record) :
    ∀ (i0 off0 : Nat), off0 < 4294967296 →
      sparseAux l i0 off0 =
        ((List.range l.length).filter
            (fun j => (i0 + j) % SparseIndexSampleSize == 0)).map
          (fun j => ⟨(l.getD j defRec).header.keySize, (l.getD j defRec).key,
            (off0 + sumRS (l.take j)) % 4294967296⟩) := by
  induction l with
  | nil => intro i0 off0 h; simp [sparseAux]
  | cons r rest ih =>
    intro i0 off0 hoff
    rw [sparseAux, ih (i0 + 1) ((off0 + r.recordSize) % 4294967296) (by omega)]
    rw [List.length_cons, List.range_succ_eq_map, List.filter_cons, filter_map_succ]
    have htail :
        (List.filter (fun j => (i0 + 1 + j) % SparseIndexSampleSize == 0)
            (List.range rest.length)).map
          (fun j => (⟨(rest.getD j defRec).header.keySize, (rest.getD j defRec).key,
            ((off0 + r.recordSize) % 4294967296 + sumRS (rest.take j))
              % 4294967296⟩ : SparseIndexEntry)) =
        (List.map Nat.succ (List.filter
            (fun j => (i0 + (j + 1)) % SparseIndexSampleSize == 0)
            (List.range rest.length))).map
          (fun j => (⟨((r :: rest).getD j defRec).header.keySize,
            ((r :: rest).getD j defRec).key,
            (off0 + sumRS ((r :: rest).take j)) % 4294967296⟩ : SparseIndexEntry)) := by
      rw [List.map_map]
      have hpred : (fun j => (i0 + 1 + j) % SparseIndexSampleSize == 0)
          = (fun j => (i0 + (j + 1)) % SparseIndexSampleSize == 0) := by
        funext j
        rw [show i0 + 1 + j = i0 + (j + 1) from by omega]
      rw [hpred]
      apply List.map_congr_left
      intro a _
      simp only [Function.comp_apply, List.getD_cons_succ, List.take_succ_cons, sumRS]
      simp only [SparseIndexEntry.mk.injEq, true_and, and_true]
      omega
    by_cases hc : i0 % SparseIndexSampleSize = 0
    · rw [if_pos hc, if_pos (by simpa using hc), List.map_cons, List.singleton_append, htail]
      congr 1
      simp [sumRS, Nat.mod_eq_of_lt hoff]
    · rw [if_neg hc, if_neg (by simpa using hc), List.nil_append, htail]

/-- C3 (amended): on a non-empty sorted batch the build path emits a
sparse-index entry exactly for the batch indices `j` with `j % 1000 = 0`;
each entry's `byteOffset` is the sum of the `RecordSize` fields of all
earlier records reduced `% 2^32` (the counter is a `uint32`, so it is the
exact sum only while that sum fits in 32 bits); entry 0 has `byteOffset`
`0` and carries `minKey`; and a 2500-record batch yields exactly 3
entries. -/
theorem sparse_index_layout (entries : List Record) (t : SSTable)
    (hne : entries ≠ []) (hsort : strictlyAscending entries = true)
    (hfresh : t.sparseKeys = []) :
    (writeEntriesToSST entries t).sparseKeys =
      ((List.range entries.length).filter
          (fun j => j % SparseIndexSampleSize == 0)).map
        (fun j => ⟨(entries.getD j defRec).header.keySize,
          (entries.getD j defRec).key,
          sumRS (entries.take j) % 4294967296⟩) ∧
    (writeEntriesToSST entries t).sparseKeys.getD 0 defEntry =
      ⟨(entries.getD 0 defRec).header.keySize, (writeEntriesToSST entries t).minKey, 0⟩ ∧
    (entries.length = 2500 → (writeEntriesToSST entries t).sparseKeys.length = 3) := by
  have hmain : (writeEntriesToSST entries t).sparseKeys =
      ((List.range entries.length).filter
          (fun j => j % SparseIndexSampleSize == 0)).map
        (fun j => ⟨(entries.getD j defRec).header.keySize,
          (entries.getD j defRec).key,
          sumRS (entries.take j) % 4294967296⟩) := by
    show t.sparseKeys ++ sparseAux entries 0 0 = _
    rw [hfresh, List.nil_append, sparseAux_char entries 0 0 (by omega)]
    simp only [Nat.zero_add]
  refine ⟨hmain, ?_, ?_⟩
  · obtain ⟨e, es, rfl⟩ := List.exists_cons_of_ne_nil hne
    rw [hmain, List.length_cons, List.range_succ_eq_map, List.filter_cons]
    rw [if_pos (by decide), List.map_cons, List.getD_cons_zero]
    simp [writeEntriesToSST, sumRS]
  · intro h2500
    rw [hmain, List.length_map, h2500]
    decide

/-- Witness for `sparse_index_layout` on the three-record `exBatch`. -/
theorem sparse_index_layout_witness :
    (exBatch ≠ [] ∧ strictlyAscending exBatch = true ∧ emptyTable.sparseKeys = []) ∧
    ((writeEntriesToSST exBatch emptyTable).sparseKeys =
      ((List.range exBatch.length).filter
          (fun j => j % SparseIndexSampleSize == 0)).map
        (fun j => ⟨(exBatch.getD j defRec).header.keySize,
          (exBatch.getD j defRec).key,
          sumRS (exBatch.take j) % 4294967296⟩) ∧
    (writeEntriesToSST exBatch emptyTable).sparseKeys.getD 0 defEntry =
      ⟨(exBatch.getD 0 defRec).header.keySize,
        (writeEntriesToSST exBatch emptyTable).minKey, 0⟩ ∧
    (exBatch.length = 2500 →
      (writeEntriesToSST exBatch emptyTable).sparseKeys.length = 3)) :=
  ⟨by decide, sparse_index_layout exBatch emptyTable (by decide) (by decide) rfl⟩

/-- A value of 4294967196 zero bytes, making one record whose encoded size
is within 82 bytes of the full `uint32` range. -/
def bigValue : Str := List.replicate 4294967196 0

/-- A well-formed record with key `"\x00"` and a value of 4294967196
bytes: its `RecordSize` is `17 + 1 + 4294967196 = 4294967214`. -/
def bigRec : Record := ⟨⟨0, 0, 0, 1, 4294967196⟩, [0], bigValue, 4294967214⟩

/-- Small well-formed two-byte-key records with strictly ascending keys
`[1 + i/256, i % 256]` and `RecordSize` 19. -/
def tinyRec (i : Nat) : Record :=
  ⟨⟨0, 0, 0, 2, 0⟩, [1 + i / 256, i % 256], [], 19⟩

/-- A strictly ascending batch of 1001 well-formed records whose first
1000 records total `4294986195 > 2^32` encoded bytes. -/
def bigBatch : List Record := bigRec :: (List.range 1000).map tinyRec

/-- `bigRec` satisfies the record well-formedness invariants. -/
lemma wf_bigRec : WFRecord bigRec := by
  have hvlen : bigRec.value.length = 4294967196 := List.length_replicate 4294967196 0
  have hklen : bigRec.key.length = 1 := rfl
  refine ⟨rfl, hvlen.symm, by rw [hklen]; norm_num, by rw [hvlen]; norm_num,
    by decide, ?_, by rw [hklen, hvlen]; norm_num [headerSize, bigRec]⟩
  intro b hb
  have : b = 0 := ((List.mem_replicate).mp hb).2
  omega

/-- Each `tinyRec i` with `i < 1000` satisfies the record well-formedness
invariants. -/
lemma wf_tinyRec (i : Nat) (hi : i < 1000) : WFRecord (tinyRec i) := by
  refine ⟨rfl, rfl, by norm_num [tinyRec], by norm_num [tinyRec], ?_, by simp [tinyRec], rfl⟩
  intro b hb
  simp only [tinyRec, List.mem_cons, List.not_mem_nil, or_false] at hb
  have h1 : i / 256 < 4 := by omega
  rcases hb with rfl | rfl
  · omega
  · omega

/-- C3 (counterexample to the claim as stated): `bigBatch` is a non-empty
strictly ascending batch of well-formed records, yet the sparse-index entry
emitted at batch index 1000 has `byteOffset` `18899` — the running
`uint32` counter having wrapped — while the sum of the encoded sizes of the
1000 records before it is `4294986195`. -/
theorem sparse_offset_wraps_at_4gib :
    bigBatch ≠ [] ∧ strictlyAscending bigBatch = true ∧
    (∀ r ∈ bigBatch, WFRecord r) ∧
    ((InitSSTableOnDisk bigBatch).sparseKeys.getD 1 defEntry).byteOffset
      ≠ sumRS (bigBatch.take 1000) := by
  refine ⟨by simp [bigBatch], by decide, ?_, by decide⟩
  intro r hr
  rw [bigBatch] at hr
  rcases List.mem_cons.mp hr with rfl | hmem
  · exact wf_bigRec
  · obtain ⟨i, hi, rfl⟩ := List.mem_map.mp hmem
    exact wf_tinyRec i (List.mem_range.mp hi)

end Genesis
